import Mathlib

/-!
# Verification of the `mups` process-inspection utility

A shallow embedding of the core of `src/main.rs`:

* `parseStat` embeds the parsing part of `ProcStat::read_pid` (the part after
  the status file has been read into a string).  Strings are modelled as
  `List Char`, with indices counting characters; this coincides with the Rust
  byte indices on ASCII content.  A Rust panic (a failing `unwrap`, or a
  slice index out of range) is modelled by the outcome `ParseOutcome.panic`;
  the source's dead `return None` arm after the first `pieces.next()` is kept
  as `ParseOutcome.unavail`.
* `cmdlineRender` embeds `cmdline_to_stdout` after the cmdline file has been
  read: the byte output written to stdout, with bytes as `Nat`.  The result
  `none` models a panic: the `usize` underflow of `cmdline.len() - 1` (and
  the subsequent slice-out-of-range) on empty content, and the
  `expect("need to have some argument")`.
* `prettify` embeds `prettify`.
* `walkFuel` embeds the `while pid != 1` loop of `run_whatps`; the parent map
  `resolve : Nat → Option Nat` abstracts `ProcStat::read_pid`'s `ppid` field
  (with `none` for an unavailable status record).  `fuel` bounds the number
  of loop iterations; the value `none` means the loop has not exited within
  `fuel` iterations.
* `emitAll` / `displayPass` embed the display loop of `run_whatps`, with
  `stateOf : Nat → Option Char` abstracting the fresh `ProcStat::read_pid`
  state lookup that the display pass performs for each id.
-/

/-- Rust `str::split(c)` and `slice::split` semantics on a list: the result
always has at least one piece, and empty pieces are kept. -/
def splitOnSep {α : Type} [DecidableEq α] (c : α) : List α → List (List α)
  | [] => [[]]
  | x :: xs =>
    if x = c then
      [] :: splitOnSep c xs
    else
      match splitOnSep c xs with
      | [] => [[x]]
      | p :: ps => (x :: p) :: ps

/-- Rust `Vec::join(sep)` semantics on a list of lists. -/
def joinWith {α : Type} (sep : List α) : List (List α) → List α
  | [] => []
  | [t] => t
  | t :: t2 :: ts => t ++ sep ++ joinWith sep (t2 :: ts)

/-- Rust `str::find(c)`: index of the first occurrence of `c`. -/
def findIdxOf (c : Char) : List Char → Option Nat
  | [] => none
  | x :: xs => if x = c then some 0 else (findIdxOf c xs).map (· + 1)

/-- Rust `str::rfind(c)`: index of the last occurrence of `c`. -/
def rfindIdxOf (c : Char) (l : List Char) : Option Nat :=
  (findIdxOf c l.reverse).map (fun i => l.length - 1 - i)

/-- Rust `str::parse::<u32>()`: optional leading plus sign, then one or more
decimal digits, rejecting values that overflow 32 bits. -/
def parseU32 (s : List Char) : Option Nat :=
  let digits := match s with
    | '+' :: rest => rest
    | _ => s
  if digits = [] then none
  else if digits.all (fun c => c.isDigit) then
    let v := digits.foldl (fun acc c => acc * 10 + (c.toNat - 48)) 0
    if v < 4294967296 then some v else none
  else none

/-- The `ProcStat` struct of the source. -/
structure ProcStat where
  comm : List Char
  pid : Nat
  ppid : Nat
  state : Char
deriving DecidableEq

/-- Outcome of the parsing part of `ProcStat::read_pid`: `panic` models a
failing `unwrap` or an out-of-range slice; `unavail` models `return None`
from within the parsing code (a dead arm in the source, kept for
faithfulness); `ok` is a successfully built record. -/
inductive ParseOutcome where
  | panic
  | unavail
  | ok (stat : ProcStat)
deriving DecidableEq

/-- The parsing part of `ProcStat::read_pid`, applied to the text of the
status file.  Follows the source line by line:
`let lparen = stat.find('(').unwrap();`
`let rparen = stat.rfind(')').unwrap();`
`(&stat[(lparen + 1)..rparen], &stat[(rparen + 2)..])` (the slices panic
when `lparen + 1 > rparen` or `rparen + 2 > stat.len()`), then
`stat_end.split(' ')` with the first piece's first character as the state
and the second piece parsed as `u32` for the ppid, each `unwrap` a panic. -/
def parseStat (pid : Nat) (stat : List Char) : ParseOutcome :=
  match findIdxOf '(' stat with
  | none => ParseOutcome.panic
  | some lparen =>
    match rfindIdxOf ')' stat with
    | none => ParseOutcome.panic
    | some rparen =>
      if lparen + 1 ≤ rparen ∧ rparen + 2 ≤ stat.length then
        let comm := (stat.drop (lparen + 1)).take (rparen - (lparen + 1))
        let statEnd := stat.drop (rparen + 2)
        match splitOnSep ' ' statEnd with
        | [] => ParseOutcome.unavail
        | piece :: rest =>
          match piece with
          | [] => ParseOutcome.panic
          | st :: _ =>
            match rest with
            | [] => ParseOutcome.panic
            | f2 :: _ =>
              match parseU32 f2 with
              | none => ParseOutcome.panic
              | some ppid => ParseOutcome.ok ⟨comm, pid, ppid, st⟩
      else ParseOutcome.panic

/-- The separator bytes `" \\\n    ".as_bytes()` of `cmdline_to_stdout`:
space, backslash, newline, four spaces. -/
def sepBytes : List Nat := [32, 92, 10, 32, 32, 32, 32]

/-- The kernel encoding of an argument list in a cmdline file: every
argument followed by a NUL byte. -/
def encodeArgs (args : List (List Nat)) : List Nat :=
  (args.map (fun a => a ++ [0])).flatten

/-- The output-producing part of `cmdline_to_stdout`, applied to the bytes of
the cmdline file; the result is the byte sequence written to stdout.
`none` models a panic: on empty content `cmdline.len() - 1` underflows its
`usize` and the slice `cmdline[..]` traps, and an empty piece list would trip
`expect("need to have some argument")`. -/
def cmdlineRender (cmdline : List Nat) : Option (List Nat) :=
  if cmdline.length = 0 then none
  else
    match splitOnSep 0 (cmdline.take (cmdline.length - 1)) with
    | [] => none
    | first :: rest =>
      some (first ++ (rest.map (fun p => sepBytes ++ p)).flatten ++ [10])

/-- `true` when `cmdlineRender` succeeds and its output ends in a newline
byte. -/
def endsWithNewline (bs : List Nat) : Bool :=
  match cmdlineRender bs with
  | none => false
  | some out => out.getLast? == some 10

/-- The continuation separator `" \\\n    "` as characters. -/
def contSep : List Char := [' ', '\\', '\n', ' ', ' ', ' ', ' ']

/-- The `prettify` function of the source: split on single spaces, rejoin
with the continuation separator. -/
def prettify (s : List Char) : List Char :=
  joinWith contSep (splitOnSep ' ' s)

/-- The `while pid != 1` loop of `run_whatps` over an abstract parent map.
`resolve p` is the `ppid` field of `ProcStat::read_pid(p)`, with `none` for
an unavailable record.  `pids` is the accumulated chain (which already holds
the current `pid`); `fuel` bounds the iterations, and `none` means the loop
has not exited within `fuel` iterations. -/
def walkFuel (resolve : Nat → Option Nat) : Nat → Nat → List Nat → Option (List Nat)
  | 0, _, _ => none
  | fuel + 1, pid, pids =>
    if pid = 1 then some pids
    else
      match resolve pid with
      | none => some pids
      | some pp => walkFuel resolve fuel pp (pids ++ [pp])

/-- The walk from `pid` exits after some finite number of iterations. -/
def walkTerminates (resolve : Nat → Option Nat) (pid : Nat) : Prop :=
  ∃ fuel, (walkFuel resolve fuel pid [pid]).isSome = true

/-- `true` when a chain is nonempty and its last element is the root id 1 or
an id whose status record cannot be resolved. -/
def chainEndsOk (resolve : Nat → Option Nat) (out : List Nat) : Bool :=
  match out.getLast? with
  | none => false
  | some q => q == 1 || (resolve q).isNone

/-- One output event of the display loop of `run_whatps`: a header line
`pid <id> [<state>]:` or the argument dump for an id. -/
inductive OutEvent where
  | header (pid : Nat) (state : Char)
  | cmdline (pid : Nat)
deriving DecidableEq

/-- The body of the display loop of `run_whatps`, over an already ordered
id list: for each id, a header whose state is the freshly resolved state
character with a question mark substituted on failure, then the argument
dump. -/
def emitAll (stateOf : Nat → Option Char) : List Nat → List OutEvent
  | [] => []
  | p :: ps =>
    OutEvent.header p ((stateOf p).getD '?') :: OutEvent.cmdline p :: emitAll stateOf ps

/-- The display pass of `run_whatps`: iterate the chain in reverse
(`pids.iter().rev()`), emitting a header and the argument dump for each. -/
def displayPass (stateOf : Nat → Option Char) (pids : List Nat) : List OutEvent :=
  emitAll stateOf pids.reverse

/-- The sequence of ids of the header events of an event list. -/
def headerPids (evs : List OutEvent) : List Nat :=
  evs.filterMap (fun e =>
    match e with
    | OutEvent.header p _ => some p
    | OutEvent.cmdline _ => none)

/-- A parent map resolving 10 to 5 and nothing else. -/
def res10 : Nat → Option Nat := fun p => if p = 10 then some 5 else none

/-- A parent map resolving 10 to 5 and 5 to 1. -/
def res105 : Nat → Option Nat :=
  fun p => if p = 10 then some 5 else if p = 5 then some 1 else none

/-- A parent map sending every id to 2, a cycle at 2. -/
def resCyc : Nat → Option Nat := fun _ => some 2

/-- A parent map with strictly decreasing parents: positive ids resolve to
their predecessor, 0 is unresolvable. -/
def decResolve : Nat → Option Nat := fun p => if p = 0 then none else some (p - 1)

/-- A state map on which every status lookup fails. -/
def noStates : Nat → Option Char := fun _ => none

/-- The two-character token backslash-newline. -/
def bnToken : List Char := ['\\', '\n']

/-- The three-character text `a b`. -/
def abSpaced : List Char := ['a', ' ', 'b']

/-- The two-character token `ab`. -/
def abToken : List Char := ['a', 'b']

/-! ## Lemmas about splitting and joining -/

theorem splitOnSep_ne_nil {α : Type} [DecidableEq α] (c : α) :
    ∀ l : List α, splitOnSep c l ≠ [] := by
  intro l
  induction l with
  | nil => simp [splitOnSep]
  | cons x xs ih =>
    by_cases hx : x = c
    · simp [splitOnSep, hx]
    · cases hs : splitOnSep c xs with
      | nil => simp [splitOnSep, hx, hs]
      | cons p ps => simp [splitOnSep, hx, hs]

theorem splitOnSep_of_not_mem {α : Type} [DecidableEq α] (c : α) :
    ∀ t : List α, c ∉ t → splitOnSep c t = [t] := by
  intro t
  induction t with
  | nil => intro _; rfl
  | cons x xs ih =>
    intro h
    have hx : x ≠ c := fun he => h (by simp [he])
    have hxs : c ∉ xs := fun hm => h (by simp [hm])
    simp [splitOnSep, hx, ih hxs]

theorem splitOnSep_append_cons {α : Type} [DecidableEq α] (c : α) :
    ∀ t r : List α, c ∉ t → splitOnSep c (t ++ c :: r) = t :: splitOnSep c r := by
  intro t
  induction t with
  | nil => intro r _; simp [splitOnSep]
  | cons x xs ih =>
    intro r h
    have hx : x ≠ c := fun he => h (by simp [he])
    have hxs : c ∉ xs := fun hm => h (by simp [hm])
    have hih := ih r hxs
    show splitOnSep c (x :: (xs ++ c :: r)) = (x :: xs) :: splitOnSep c r
    simp only [splitOnSep, hx, if_false]
    rw [hih]

theorem splitOnSep_joinWith {α : Type} [DecidableEq α] (c : α) :
    ∀ ts : List (List α), ts ≠ [] → (∀ t ∈ ts, c ∉ t) →
      splitOnSep c (joinWith [c] ts) = ts := by
  intro ts
  induction ts with
  | nil => intro h; exact absurd rfl h
  | cons t ts ih =>
    intro _ hall
    cases ts with
    | nil =>
      show splitOnSep c (joinWith [c] [t]) = [t]
      have : joinWith [c] [t] = t := rfl
      rw [this]
      exact splitOnSep_of_not_mem c t (hall t (by simp))
    | cons t2 ts2 =>
      have hj : joinWith [c] (t :: t2 :: ts2) = t ++ c :: joinWith [c] (t2 :: ts2) := by
        simp [joinWith]
      rw [hj, splitOnSep_append_cons c t _ (hall t (by simp))]
      rw [ih (by simp) (fun u hu => hall u (by simp [hu]))]

theorem length_joinWith {α : Type} (sep : List α) :
    ∀ ts : List (List α), ts ≠ [] →
      (joinWith sep ts).length + sep.length
        = (ts.map List.length).sum + sep.length * ts.length := by
  intro ts
  induction ts with
  | nil => intro h; exact absurd rfl h
  | cons t ts ih =>
    intro _
    cases ts with
    | nil => simp [joinWith]
    | cons t2 ts2 =>
      have hj : joinWith sep (t :: t2 :: ts2) = t ++ sep ++ joinWith sep (t2 :: ts2) := by
        simp [joinWith]
      have hih := ih (by simp)
      rw [hj]
      simp only [List.length_append, List.map_cons, List.sum_cons, List.length_cons]
      simp only [List.map_cons, List.sum_cons, List.length_cons] at hih
      rw [Nat.mul_succ]
      omega

theorem count_joinWith {α : Type} [DecidableEq α] (sep : List α) (x : α) :
    ∀ ts : List (List α), ts ≠ [] → (∀ t ∈ ts, x ∉ t) →
      (joinWith sep ts).count x + sep.count x = sep.count x * ts.length := by
  intro ts
  induction ts with
  | nil => intro h; exact absurd rfl h
  | cons t ts ih =>
    intro _ hall
    have ht : t.count x = 0 := List.count_eq_zero.mpr (hall t (by simp))
    cases ts with
    | nil => simp [joinWith, ht]
    | cons t2 ts2 =>
      have hj : joinWith sep (t :: t2 :: ts2) = t ++ sep ++ joinWith sep (t2 :: ts2) := by
        simp [joinWith]
      have hih := ih (by simp) (fun u hu => hall u (by simp [hu]))
      rw [hj]
      simp only [List.count_append, List.length_cons, ht]
      simp only [List.length_cons] at hih
      rw [Nat.mul_succ]
      omega

theorem sum_length_splitOnSep {α : Type} [DecidableEq α] (c : α) :
    ∀ l : List α, ((splitOnSep c l).map List.length).sum + l.count c = l.length := by
  intro l
  induction l with
  | nil => simp [splitOnSep]
  | cons x xs ih =>
    by_cases hx : x = c
    · subst hx
      have hred : splitOnSep x (x :: xs) = [] :: splitOnSep x xs := by
        simp [splitOnSep]
      rw [hred, List.count_cons_self]
      simp only [List.map_cons, List.sum_cons, List.length_nil, List.length_cons]
      omega
    · cases hs : splitOnSep c xs with
      | nil => exact absurd hs (splitOnSep_ne_nil c xs)
      | cons p ps =>
        have hred : splitOnSep c (x :: xs) = (x :: p) :: ps := by
          simp only [splitOnSep, hx, if_false]
          rw [hs]
        rw [hred]
        rw [hs] at ih
        have hcnt : (x :: xs).count c = xs.count c :=
          List.count_cons_of_ne (fun he => hx he.symm) xs
        rw [hcnt]
        simp only [List.map_cons, List.sum_cons, List.length_cons] at ih ⊢
        omega

theorem length_splitOnSep {α : Type} [DecidableEq α] (c : α) :
    ∀ l : List α, (splitOnSep c l).length = l.count c + 1 := by
  intro l
  induction l with
  | nil => simp [splitOnSep]
  | cons x xs ih =>
    by_cases hx : x = c
    · subst hx
      have hred : splitOnSep x (x :: xs) = [] :: splitOnSep x xs := by
        simp [splitOnSep]
      rw [hred, List.count_cons_self]
      simp only [List.length_cons]
      omega
    · cases hs : splitOnSep c xs with
      | nil => exact absurd hs (splitOnSep_ne_nil c xs)
      | cons p ps =>
        have hred : splitOnSep c (x :: xs) = (x :: p) :: ps := by
          simp only [splitOnSep, hx, if_false]
          rw [hs]
        rw [hred, List.count_cons_of_ne (fun he => hx he.symm)]
        rw [hs] at ih
        simpa using ih

theorem not_mem_of_mem_splitOnSep {α : Type} [DecidableEq α] (c : α) :
    ∀ l t : List α, t ∈ splitOnSep c l → c ∉ t := by
  intro l
  induction l with
  | nil =>
    intro t ht hc
    simp [splitOnSep] at ht
    subst ht
    simp at hc
  | cons x xs ih =>
    intro t ht hc
    by_cases hx : x = c
    · subst hx
      have hred : splitOnSep x (x :: xs) = [] :: splitOnSep x xs := by
        simp [splitOnSep]
      rw [hred] at ht
      rcases List.mem_cons.mp ht with h1 | h1
      · subst h1; simp at hc
      · exact ih t h1 hc
    · cases hs : splitOnSep c xs with
      | nil => exact absurd hs (splitOnSep_ne_nil c xs)
      | cons p ps =>
        have hred : splitOnSep c (x :: xs) = (x :: p) :: ps := by
          simp only [splitOnSep, hx, if_false]
          rw [hs]
        rw [hred] at ht
        rcases List.mem_cons.mp ht with h1 | h1
        · subst h1
          rcases List.mem_cons.mp hc with h2 | h2
          · exact hx h2.symm
          · exact ih p (by rw [hs]; exact List.mem_cons_self p ps) h2
        · exact ih t (by rw [hs]; exact List.mem_cons_of_mem p h1) hc

/-! ## Lemmas about character search -/

theorem findIdxOf_eq_none (c : Char) :
    ∀ l : List Char, c ∉ l → findIdxOf c l = none := by
  intro l
  induction l with
  | nil => intro _; rfl
  | cons x xs ih =>
    intro h
    have hx : x ≠ c := fun he => h (by simp [he])
    have hxs : c ∉ xs := fun hm => h (by simp [hm])
    simp [findIdxOf, hx, ih hxs]

theorem findIdxOf_append_cons (c : Char) :
    ∀ pre tl : List Char, c ∉ pre → findIdxOf c (pre ++ c :: tl) = some pre.length := by
  intro pre
  induction pre with
  | nil => intro tl _; simp [findIdxOf]
  | cons x xs ih =>
    intro tl h
    have hx : x ≠ c := fun he => h (by simp [he])
    have hxs : c ∉ xs := fun hm => h (by simp [hm])
    simp [findIdxOf, hx, ih tl hxs]

theorem rfindIdxOf_eq_none (c : Char) (l : List Char) (h : c ∉ l) :
    rfindIdxOf c l = none := by
  unfold rfindIdxOf
  rw [findIdxOf_eq_none c l.reverse (by simpa using h)]
  rfl

theorem rfindIdxOf_append_cons (c : Char) (pre tl : List Char) (h : c ∉ tl) :
    rfindIdxOf c (pre ++ c :: tl) = some pre.length := by
  unfold rfindIdxOf
  have hrev : (pre ++ c :: tl).reverse = tl.reverse ++ c :: pre.reverse := by
    simp
  rw [hrev, findIdxOf_append_cons c tl.reverse pre.reverse (by simpa using h)]
  simp only [Option.map_some']
  have hlen : (pre ++ c :: tl).length = pre.length + tl.length + 1 := by
    simp; omega
  rw [hlen, List.length_reverse]
  congr 1
  omega

/-! ## Lemmas about `prettify` -/

theorem length_prettify (s : List Char) :
    (prettify s).length = s.length + 6 * s.count ' ' := by
  have h1 := length_joinWith contSep (splitOnSep ' ' s) (splitOnSep_ne_nil ' ' s)
  have h2 := sum_length_splitOnSep ' ' s
  have h3 := length_splitOnSep ' ' s
  have h4 : contSep.length = 7 := rfl
  rw [h3, h4] at h1
  unfold prettify
  omega

theorem count_space_prettify (s : List Char) :
    (prettify s).count ' ' = 5 * s.count ' ' := by
  have h1 := count_joinWith contSep ' ' (splitOnSep ' ' s) (splitOnSep_ne_nil ' ' s)
    (fun t ht => not_mem_of_mem_splitOnSep ' ' s t ht)
  have h3 := length_splitOnSep ' ' s
  have h4 : contSep.count ' ' = 5 := rfl
  rw [h3, h4] at h1
  unfold prettify
  omega

/-! ## Lemmas about the ancestor walk -/

theorem walk_spine (resolve : Nat → Option Nat) :
    ∀ (fuel pid a : Nat) (acc out : List Nat),
      (a :: acc).getLast? = some pid →
      walkFuel resolve fuel pid (a :: acc) = some out →
      out.head? = some a ∧ chainEndsOk resolve out = true := by
  intro fuel
  induction fuel with
  | zero => intro pid a acc out _ h2; exact absurd h2 (by simp [walkFuel])
  | succ fuel ih =>
    intro pid a acc out hlast h2
    by_cases hp : pid = 1
    · subst hp
      have hout : out = a :: acc := by
        simpa [walkFuel] using h2.symm
      subst hout
      refine ⟨rfl, ?_⟩
      unfold chainEndsOk
      rw [hlast]
      simp
    · cases hres : resolve pid with
      | none =>
        have hout : out = a :: acc := by
          rw [show walkFuel resolve (fuel + 1) pid (a :: acc) = some (a :: acc) from by
            simp [walkFuel, hp, hres]] at h2
          exact (Option.some.inj h2).symm
        subst hout
        refine ⟨rfl, ?_⟩
        unfold chainEndsOk
        rw [hlast]
        simp [hres]
      | some pp =>
        have hstep : walkFuel resolve (fuel + 1) pid (a :: acc) =
            walkFuel resolve fuel pp (a :: (acc ++ [pp])) := by
          simp [walkFuel, hp, hres]
        rw [hstep] at h2
        have hlast2 : (a :: (acc ++ [pp])).getLast? = some pp := by
          rw [show a :: (acc ++ [pp]) = (a :: acc) ++ [pp] from by simp]
          exact List.getLast?_concat _
        exact ih pp a (acc ++ [pp]) out hlast2 h2

theorem walkFuel_mono (resolve : Nat → Option Nat) :
    ∀ (fuel fuel' pid : Nat) (acc out : List Nat),
      fuel ≤ fuel' →
      walkFuel resolve fuel pid acc = some out →
      walkFuel resolve fuel' pid acc = some out := by
  intro fuel
  induction fuel with
  | zero => intro fuel' pid acc out _ h; exact absurd h (by simp [walkFuel])
  | succ fuel ih =>
    intro fuel' pid acc out hle h
    cases fuel' with
    | zero => omega
    | succ fuel'' =>
      by_cases hp : pid = 1
      · subst hp
        simpa [walkFuel] using h
      · cases hres : resolve pid with
        | none => simpa [walkFuel, hp, hres] using h
        | some pp =>
          rw [show walkFuel resolve (fuel + 1) pid acc =
              walkFuel resolve fuel pp (acc ++ [pp]) from by simp [walkFuel, hp, hres]] at h
          rw [show walkFuel resolve (fuel'' + 1) pid acc =
              walkFuel resolve fuel'' pp (acc ++ [pp]) from by simp [walkFuel, hp, hres]]
          exact ih fuel'' pp (acc ++ [pp]) out (by omega) h

theorem walk_dec (resolve : Nat → Option Nat)
    (hdec : ∀ p q, resolve p = some q → q < p) :
    ∀ (pid : Nat) (acc : List Nat), (walkFuel resolve (pid + 1) pid acc).isSome = true := by
  intro pid
  induction pid using Nat.strong_induction_on with
  | _ pid ih =>
    intro acc
    by_cases hp : pid = 1
    · subst hp; simp [walkFuel]
    · cases hres : resolve pid with
      | none => simp [walkFuel, hp, hres]
      | some pp =>
        have hlt : pp < pid := hdec pid pp hres
        have hs := ih pp hlt (acc ++ [pp])
        obtain ⟨out, hout⟩ := Option.isSome_iff_exists.mp hs
        have hmono := walkFuel_mono resolve (pp + 1) pid pp (acc ++ [pp]) out (by omega) hout
        rw [show walkFuel resolve (pid + 1) pid acc =
            walkFuel resolve pid pp (acc ++ [pp]) from by simp [walkFuel, hp, hres]]
        simp [hmono]

theorem walk_cyc : ∀ (fuel : Nat) (acc : List Nat), walkFuel resCyc fuel 2 acc = none := by
  intro fuel
  induction fuel with
  | zero => intro acc; rfl
  | succ fuel ih =>
    intro acc
    rw [show walkFuel resCyc (fuel + 1) 2 acc = walkFuel resCyc fuel 2 (acc ++ [2]) from by
      simp [walkFuel, resCyc]]
    exact ih (acc ++ [2])

/-! ## Lemmas about the display pass -/

theorem headerPids_emitAll (stateOf : Nat → Option Char) :
    ∀ l : List Nat, headerPids (emitAll stateOf l) = l := by
  intro l
  induction l with
  | nil => rfl
  | cons p ps ih => simp [emitAll, headerPids, List.filterMap] at ih ⊢; exact ih

theorem header_mem_emitAll (stateOf : Nat → Option Char) :
    ∀ (l : List Nat) (p : Nat), p ∈ l → stateOf p = none →
      OutEvent.header p '?' ∈ emitAll stateOf l := by
  intro l
  induction l with
  | nil => intro p hp; simp at hp
  | cons q qs ih =>
    intro p hp hs
    rcases List.mem_cons.mp hp with h1 | h1
    · subst h1
      rw [show emitAll stateOf (p :: qs) =
          OutEvent.header p ((stateOf p).getD '?') :: OutEvent.cmdline p :: emitAll stateOf qs
          from rfl]
      rw [hs]
      exact List.mem_cons_self _ _
    · rw [show emitAll stateOf (q :: qs) =
          OutEvent.header q ((stateOf q).getD '?') :: OutEvent.cmdline q :: emitAll stateOf qs
          from rfl]
      exact List.mem_cons_of_mem _ (List.mem_cons_of_mem _ (ih p h1 hs))

theorem encodeArgs_eq_join :
    ∀ args : List (List Nat), args ≠ [] → encodeArgs args = joinWith [0] args ++ [0] := by
  intro args
  induction args with
  | nil => intro h; exact absurd rfl h
  | cons a args ih =>
    intro _
    cases args with
    | nil => simp [encodeArgs, joinWith]
    | cons a2 args2 =>
      have hih := ih (by simp)
      have h1 : encodeArgs (a :: a2 :: args2) = (a ++ [0]) ++ encodeArgs (a2 :: args2) := by
        simp [encodeArgs]
      have h2 : joinWith [0] (a :: a2 :: args2) = a ++ [0] ++ joinWith [0] (a2 :: args2) := by
        simp [joinWith]
      rw [h1, hih, h2]
      simp

/-! ## Claim theorems -/

/-- C7: for every text with zero or more single-space-separated tokens,
`prettify` returns exactly the tokens joined by the continuation separator
(space, backslash, newline, four spaces); it is a total function with no
failure mode. -/
theorem c7_prettify_joins (ts : List (List Char)) (h : ∀ t ∈ ts, ' ' ∉ t) :
    prettify (joinWith [' '] ts) = joinWith contSep ts := by
  cases ts with
  | nil => rfl
  | cons t ts2 =>
    unfold prettify
    rw [splitOnSep_joinWith ' ' (t :: ts2) (by simp) h]

/-- Witness for C7 at the token list `gcc`, `-c`, `hello.c`. -/
theorem c7_witness :
    prettify (joinWith [' ']
        [['g', 'c', 'c'], ['-', 'c'], ['h', 'e', 'l', 'l', 'o', '.', 'c']])
      = joinWith contSep [['g', 'c', 'c'], ['-', 'c'], ['h', 'e', 'l', 'l', 'o', '.', 'c']] :=
  c7_prettify_joins _ (by decide)

/-- C8, counterexample: the input consisting of the single token
backslash-newline (its own sole piece under space splitting, and containing
the backslash-newline pattern of the separator) is a fixed point of
`prettify`, so applying `prettify` twice equals applying it once there; while
the plain two-token input `a b`, whose tokens contain no backslash or
newline at all, is not idempotent.  Non-idempotence is therefore not tied to
tokens containing separator patterns. -/
theorem c8_cex :
    splitOnSep ' ' bnToken = [bnToken] ∧
    prettify (prettify bnToken) = prettify bnToken ∧
    prettify (prettify abSpaced) ≠ prettify abSpaced :=
  ⟨by decide, by decide, by decide⟩

/-- C8 as amended: `prettify` is idempotent on an input exactly when the
input contains no space, i.e. consists of a single token.  (A token can
never contain the full continuation separator, which itself contains
spaces; any input with two or more tokens is non-idempotent because the
separator inserted by the first pass is re-split by the second.) -/
theorem c8_prettify_idem_iff (s : List Char) :
    prettify (prettify s) = prettify s ↔ ' ' ∉ s := by
  constructor
  · intro h hmem
    have hc : s.count ' ' ≠ 0 := fun h0 => (List.count_eq_zero.mp h0) hmem
    have hlen := congrArg List.length h
    rw [length_prettify (prettify s), count_space_prettify s] at hlen
    omega
  · intro h
    have hps : prettify s = s := by
      unfold prettify
      rw [splitOnSep_of_not_mem ' ' s h]
      rfl
    rw [hps]
    exact hps

/-- Witness for C8 as amended: the space-free input `ab` is idempotent. -/
theorem c8_witness : prettify (prettify abToken) = prettify abToken :=
  (c8_prettify_idem_iff abToken).mpr (by decide)

/-- C9: on empty cmdline content the decoder is not defended:
`cmdline.len() - 1` underflows its `usize` and the slice traps, a panic
(modelled as `none`), not output and not a soft unavailable result. -/
theorem c9_empty_cmdline_panic : cmdlineRender [] = none := rfl

/-- C10: for every non-empty cmdline byte content, splitting the
terminator-stripped bytes always yields at least one piece (the
`expect("need to have some argument")` branch is unreachable), the first
write occurs, and the rendering ends with the trailing newline byte. -/
theorem c10_split_always_piece (bs : List Nat) (h : bs ≠ []) :
    0 < (splitOnSep 0 (bs.take (bs.length - 1))).length ∧
    (cmdlineRender bs).isSome = true ∧ endsWithNewline bs = true := by
  have hlen : ¬bs.length = 0 := fun h0 => h (List.length_eq_zero.mp h0)
  cases hsp : splitOnSep 0 (bs.take (bs.length - 1)) with
  | nil => exact absurd hsp (splitOnSep_ne_nil 0 _)
  | cons p ps =>
    have hrender : cmdlineRender bs
        = some (p ++ (ps.map (fun q => sepBytes ++ q)).flatten ++ [10]) := by
      unfold cmdlineRender
      rw [if_neg hlen, hsp]
    refine ⟨by simp [hsp], by simp [hrender], ?_⟩
    unfold endsWithNewline
    rw [hrender]
    show ((p ++ (ps.map (fun q => sepBytes ++ q)).flatten ++ [10]).getLast? == some 10) = true
    rw [show p ++ (ps.map (fun q => sepBytes ++ q)).flatten ++ [10]
        = (p ++ (ps.map (fun q => sepBytes ++ q)).flatten) ++ [10] from by simp]
    rw [List.getLast?_concat]
    rfl

/-- Witness for C10 at the one-byte content consisting of a single NUL. -/
theorem c10_witness :
    0 < (splitOnSep 0 (([0] : List Nat).take (([0] : List Nat).length - 1))).length ∧
    (cmdlineRender [0]).isSome = true ∧ endsWithNewline [0] = true :=
  c10_split_always_piece [0] (by decide)

/-- C1: decoding NUL-separated, NUL-terminated bytes (drop the final NUL,
split the remainder on NUL) and rendering writes the first argument's raw
bytes, then each further argument preceded by the literal separator bytes
(space, backslash, newline, four spaces), then a trailing newline, with no
byte lost or transformed, for arguments made of arbitrary non-NUL bytes. -/
theorem c1_cmdline_roundtrip (a0 : List Nat) (rest : List (List Nat))
    (h : ∀ a ∈ a0 :: rest, (0 : Nat) ∉ a) :
    cmdlineRender (encodeArgs (a0 :: rest))
      = some (a0 ++ (rest.map (fun p => sepBytes ++ p)).flatten ++ [10]) := by
  have henc := encodeArgs_eq_join (a0 :: rest) (by simp)
  rw [henc]
  have hlen : (joinWith [0] (a0 :: rest) ++ [0]).length
      = (joinWith [0] (a0 :: rest)).length + 1 := by simp
  unfold cmdlineRender
  rw [if_neg (by rw [hlen]; omega)]
  have htake : (joinWith [0] (a0 :: rest) ++ [0]).take
      ((joinWith [0] (a0 :: rest) ++ [0]).length - 1) = joinWith [0] (a0 :: rest) := by
    rw [hlen]
    have h1 : (joinWith [0] (a0 :: rest)).length + 1 - 1
        = (joinWith [0] (a0 :: rest)).length := rfl
    rw [h1]
    exact List.take_left _ _
  rw [htake, splitOnSep_joinWith 0 (a0 :: rest) (by simp) h]

/-- Witness for C1 at the two-argument list `[105]`, `[255, 66]`, the second
argument holding a non-text byte. -/
theorem c1_witness :
    cmdlineRender (encodeArgs [[105], [255, 66]])
      = some [105, 32, 92, 10, 32, 32, 32, 32, 255, 66, 10] :=
  (c1_cmdline_roundtrip [105] [[255, 66]] (by decide)).trans (by decide)

/-- C2, counterexample: with a parent map resolving only 10 (to 5), the walk
from 10 exits with the chain `[10, 5]`: its last element 5 is neither the
root id 1 nor an id whose status record could be resolved — the chain ends
one past the last resolvable id, not at the last resolvable id. -/
theorem c2_chain_cex :
    walkFuel res10 2 10 [10] = some [10, 5] ∧
    ([10, 5] : List Nat).getLast? = some 5 ∧
    res10 5 = none ∧ (5 : Nat) ≠ 1 ∧ res10 10 = some 5 :=
  ⟨by decide, by decide, by decide, by decide, by decide⟩

/-- C2 as amended: whenever the walk loop exits, the chain begins with the
originally requested process id, and its last element is either the root id
1 or an id whose own status record could not be resolved (the id one past
the last resolvable one). -/
theorem c2_chain_spine (resolve : Nat → Option Nat) (fuel pid : Nat) (out : List Nat)
    (h : walkFuel resolve fuel pid [pid] = some out) :
    out.head? = some pid ∧ chainEndsOk resolve out = true :=
  walk_spine resolve fuel pid pid [] out rfl h

/-- Witness for C2 as amended, at the map resolving only 10 to 5. -/
theorem c2_witness :
    ([10, 5] : List Nat).head? = some 10 ∧ chainEndsOk res10 [10, 5] = true :=
  c2_chain_spine res10 2 10 [10, 5] (by decide)

/-- C5, counterexample: with the parent map sending every id to 2, the walk
from 2 never exits — no amount of fuel makes the loop reach an exit, so the
walk does not terminate for every parent map. -/
theorem c5_nonterm_cex : ¬walkTerminates resCyc 2 := by
  rintro ⟨fuel, hsome⟩
  rw [walk_cyc fuel [2]] at hsome
  simp at hsome

/-- C5 as amended: the walk terminates from every starting id whenever every
resolvable parent id is strictly smaller than its child (as in a
well-founded process tree); the loop then exits, by reaching id 1 or by a
failed resolution, within `pid + 1` iterations. -/
theorem c5_walk_terminates_dec (resolve : Nat → Option Nat)
    (hdec : ∀ p q, resolve p = some q → q < p) (pid : Nat) :
    walkTerminates resolve pid :=
  ⟨pid + 1, walk_dec resolve hdec pid [pid]⟩

/-- Witness for C5 as amended, at the decreasing map sending each positive
id to its predecessor. -/
theorem c5_witness : walkTerminates decResolve 5 :=
  c5_walk_terminates_dec decResolve
    (fun p q hpq => by
      unfold decResolve at hpq
      by_cases hp : p = 0
      · rw [if_pos hp] at hpq; cases hpq
      · rw [if_neg hp] at hpq
        have := Option.some.inj hpq
        omega)
    5

/-- C6: for every chain produced by the walk loop, the display pass emits
the chain's header events in reverse construction order (root-most ancestor
first), and for every chain id whose fresh status resolution fails during
display, a header with the substituted state character `?` is emitted. -/
theorem c6_display_order (stateOf : Nat → Option Char) (resolve : Nat → Option Nat)
    (fuel pid : Nat) (pids : List Nat)
    (_h : walkFuel resolve fuel pid [pid] = some pids) :
    headerPids (displayPass stateOf pids) = pids.reverse ∧
    ∀ p, p ∈ pids → stateOf p = none →
      OutEvent.header p '?' ∈ displayPass stateOf pids := by
  refine ⟨headerPids_emitAll stateOf pids.reverse, ?_⟩
  intro p hp hs
  exact header_mem_emitAll stateOf pids.reverse p (List.mem_reverse.mpr hp) hs

/-- Witness for C6 at the walk `10 -> 5 -> 1`: display order is 1, 5, 10,
and with every status lookup failing the root's header carries `?`. -/
theorem c6_witness :
    headerPids (displayPass noStates [10, 5, 1]) = [1, 5, 10] ∧
    OutEvent.header 1 '?' ∈ displayPass noStates [10, 5, 1] := by
  have hc := c6_display_order noStates res105 3 10 [10, 5, 1] (by decide)
  exact ⟨hc.1, hc.2 1 (by decide) rfl⟩

/-- C4, counterexample: on a status text with no parenthesis pair, and on a
well-parenthesized status text with no state field after the parentheses,
the parser panics (a failing `unwrap`, respectively an out-of-range slice);
it does not return the soft unavailable result. -/
theorem c4_parse_cex :
    parseStat 9 ['1', '2', '3', ' ', 'x'] = ParseOutcome.panic ∧
    parseStat 9 ['1', '2', ' ', '(', 'x', ')'] = ParseOutcome.panic ∧
    ParseOutcome.panic ≠ ParseOutcome.unavail :=
  ⟨by decide, by decide, by decide⟩

/-- C4 as amended: status-line parsing fails hard (panics) when the text has
no opening parenthesis, when it has no closing parenthesis, or when nothing
follows the last closing parenthesis (no state field); the soft `None`
result arises only from a failure to read the file, before parsing. -/
theorem c4_parse_hard_failure :
    (∀ (pid : Nat) (stat : List Char), '(' ∉ stat → parseStat pid stat = ParseOutcome.panic) ∧
    (∀ (pid : Nat) (stat : List Char), ')' ∉ stat → parseStat pid stat = ParseOutcome.panic) ∧
    (∀ (pid : Nat) (stat : List Char), parseStat pid (stat ++ [')']) = ParseOutcome.panic) := by
  refine ⟨?_, ?_, ?_⟩
  · intro pid stat h
    unfold parseStat
    rw [findIdxOf_eq_none '(' stat h]
  · intro pid stat h
    unfold parseStat
    cases hf : findIdxOf '(' stat with
    | none => rfl
    | some lp => rw [rfindIdxOf_eq_none ')' stat h]
  · intro pid stat
    unfold parseStat
    cases hf : findIdxOf '(' (stat ++ [')']) with
    | none => rfl
    | some lp =>
      rw [rfindIdxOf_append_cons ')' stat [] (by simp)]
      have hcond : ¬(lp + 1 ≤ stat.length ∧ stat.length + 2 ≤ (stat ++ [')']).length) := by
        rintro ⟨-, hk⟩
        simp only [List.length_append, List.length_cons, List.length_nil] at hk
        omega
      simp only [if_neg hcond]

/-- Witness for C4 as amended, at a text with no parentheses, a text with an
unclosed parenthesis, and a text ending right at the closing parenthesis. -/
theorem c4_witness :
    parseStat 9 ['1', '2', '3'] = ParseOutcome.panic ∧
    parseStat 9 ['1', ' ', '(', 'x'] = ParseOutcome.panic ∧
    parseStat 9 (['1', '2', ' ', '(', 'x'] ++ [')']) = ParseOutcome.panic :=
  ⟨c4_parse_hard_failure.1 9 ['1', '2', '3'] (by decide),
   c4_parse_hard_failure.2.1 9 ['1', ' ', '(', 'x'] (by decide),
   c4_parse_hard_failure.2.2 9 ['1', '2', ' ', '(', 'x']⟩

/-- C3: on a well-formed status text — anything without `(` before the first
`(`, then the display name (which may itself contain spaces and
parentheses), then `)` and one space, then the remaining fields with no
further `)` — the parser returns the record whose display name is exactly
the text strictly between the first `(` and the last `)`, whose state is the
first character of the first space-separated field after them, and whose
parent id is the second such field parsed as an unsigned integer. -/
theorem c3_parse_wellformed (pid : Nat) (pre comm rest f1 f2 : List Char)
    (others : List (List Char)) (st : Char) (pp : Nat)
    (h1 : '(' ∉ pre) (h2 : ')' ∉ rest)
    (h3 : splitOnSep ' ' rest = f1 :: f2 :: others)
    (h4 : f1.head? = some st)
    (h5 : parseU32 f2 = some pp) :
    parseStat pid (pre ++ '(' :: (comm ++ ')' :: ' ' :: rest))
      = ParseOutcome.ok ⟨comm, pid, pp, st⟩ := by
  obtain ⟨f1t, rfl⟩ : ∃ f1t, f1 = st :: f1t := by
    cases f1 with
    | nil => simp at h4
    | cons c0 f1t =>
      refine ⟨f1t, ?_⟩
      have hc0 : c0 = st := by simpa using h4
      rw [hc0]
  have hfind : findIdxOf '(' (pre ++ '(' :: (comm ++ ')' :: ' ' :: rest)) = some pre.length :=
    findIdxOf_append_cons '(' pre (comm ++ ')' :: ' ' :: rest) h1
  have hnotr : ')' ∉ (' ' :: rest) := by
    intro hm
    rcases List.mem_cons.mp hm with hsp | hmem
    · exact absurd hsp (by decide)
    · exact h2 hmem
  have hrfind : rfindIdxOf ')' (pre ++ '(' :: (comm ++ ')' :: ' ' :: rest))
      = some (pre ++ '(' :: comm).length := by
    rw [show pre ++ '(' :: (comm ++ ')' :: ' ' :: rest)
        = (pre ++ '(' :: comm) ++ ')' :: (' ' :: rest) from by simp]
    exact rfindIdxOf_append_cons ')' (pre ++ '(' :: comm) (' ' :: rest) hnotr
  have hplen : (pre ++ '(' :: comm).length = pre.length + comm.length + 1 := by
    simp only [List.length_append, List.length_cons]
    omega
  have hslen : (pre ++ '(' :: (comm ++ ')' :: ' ' :: rest)).length
      = pre.length + comm.length + rest.length + 3 := by
    simp only [List.length_append, List.length_cons]
    omega
  have hdrop1 : (pre ++ '(' :: (comm ++ ')' :: ' ' :: rest)).drop (pre.length + 1)
      = comm ++ ')' :: ' ' :: rest := by
    rw [show pre ++ '(' :: (comm ++ ')' :: ' ' :: rest)
        = (pre ++ ['(']) ++ (comm ++ ')' :: ' ' :: rest) from by simp]
    rw [show pre.length + 1 = (pre ++ ['(']).length from by simp]
    exact List.drop_left _ _
  have htake1 : (comm ++ ')' :: ' ' :: rest).take
      ((pre ++ '(' :: comm).length - (pre.length + 1)) = comm := by
    rw [show (pre ++ '(' :: comm).length - (pre.length + 1) = comm.length from by
      rw [hplen]; omega]
    exact List.take_left _ _
  have hdrop2 : (pre ++ '(' :: (comm ++ ')' :: ' ' :: rest)).drop
      ((pre ++ '(' :: comm).length + 2) = rest := by
    rw [show pre ++ '(' :: (comm ++ ')' :: ' ' :: rest)
        = (pre ++ '(' :: (comm ++ [')', ' '])) ++ rest from by simp]
    rw [show (pre ++ '(' :: comm).length + 2
        = (pre ++ '(' :: (comm ++ [')', ' '])).length from by
      simp only [List.length_append, List.length_cons, List.length_nil]
      omega]
    exact List.drop_left _ _
  have hc1 : pre.length + 1 ≤ (pre ++ '(' :: comm).length := by
    rw [hplen]; omega
  have hc2 : (pre ++ '(' :: comm).length + 2
      ≤ (pre ++ '(' :: (comm ++ ')' :: ' ' :: rest)).length := by
    rw [hplen, hslen]; omega
  simp only [parseStat]
  rw [hfind, hrfind]
  simp only [if_pos (And.intro hc1 hc2), hdrop2, h3, h5, hdrop1, htake1]

/-- Witness for C3 at the two texts of the spec's examples:
`123 (my proc) S 456 ...` and `5 (a(b)) R 1 ...`. -/
theorem c3_witness :
    parseStat 123
        (['1', '2', '3', ' '] ++ '(' :: (['m', 'y', ' ', 'p', 'r', 'o', 'c']
          ++ ')' :: ' ' :: ['S', ' ', '4', '5', '6', ' ', '.', '.', '.']))
      = ParseOutcome.ok ⟨['m', 'y', ' ', 'p', 'r', 'o', 'c'], 123, 456, 'S'⟩ ∧
    parseStat 5
        (['5', ' '] ++ '(' :: (['a', '(', 'b', ')']
          ++ ')' :: ' ' :: ['R', ' ', '1', ' ', '.', '.', '.']))
      = ParseOutcome.ok ⟨['a', '(', 'b', ')'], 5, 1, 'R'⟩ :=
  ⟨c3_parse_wellformed 123 ['1', '2', '3', ' '] ['m', 'y', ' ', 'p', 'r', 'o', 'c']
      ['S', ' ', '4', '5', '6', ' ', '.', '.', '.'] ['S'] ['4', '5', '6']
      [['.', '.', '.']] 'S' 456 (by decide) (by decide) (by decide) (by decide) (by decide),
   c3_parse_wellformed 5 ['5', ' '] ['a', '(', 'b', ')']
      ['R', ' ', '1', ' ', '.', '.', '.'] ['R'] ['1']
      [['.', '.', '.']] 'R' 1 (by decide) (by decide) (by decide) (by decide) (by decide)⟩
